import Mathlib

/-
Verification development for the mobility-network community-detection service.

The service loads an edge list from a CSV file (columns `departure_id`,
`return_id`) into an undirected simple graph, partitions the graph into
communities with the Louvain method, scores the partition with modularity,
and serves the result over HTTP.

Embedding conventions:
* `load_graph_data`, `detect_communities`, `analyze_network` are shallow
  embeddings of the functions of the same names in `app/processing.py` and
  `app/main.py`.
* The graph type `NXGraph` models the networkx `Graph` class as used by this
  program: node list in insertion order, one stored edge per unordered pair
  (re-adding an existing edge is a no-op because the program never passes
  edge attributes), self-loops permitted, and no weight attribute ever set,
  so every edge has effective weight 1 when a consumer reads the `weight`
  attribute with default 1.0 (modelled by `NXGraph.edgeWeight`).
* The Louvain optimizer (`best_partition`) and the modularity evaluator are
  third-party library calls whose code is not part of this repository; they
  are modelled from the specification (see the doc comments below).
* Python floats are modelled by `ℚ`; machine integers by `Nat`/`Int`.
-/

/-- A parsed CSV data file as consumed by `load_graph_data`: the column
headers, and for each data record the values of its two endpoint fields
(`departure_id`, `return_id`).  The program reads no other column of a
record, so no other field is modelled. -/
structure Csv where
  headers : List String
  rows : List (Nat × Nat)
deriving DecidableEq

/-- The error the loader surfaces on malformed input (the spec calls it
`DataError`; the Python code raises `ValueError` carrying this message). -/
structure DataError where
  message : String
deriving DecidableEq

/-- Model of the networkx `Graph` object built by this program: nodes in
insertion order, and one stored record per undirected edge (stored in the
orientation of its first insertion).  No edge ever carries attributes. -/
structure NXGraph where
  nodes : List Nat
  edges : List (Nat × Nat)
deriving DecidableEq

/-- Node membership, as networkx `v in G`. -/
def NXGraph.hasNode (G : NXGraph) (v : Nat) : Bool :=
  G.nodes.contains v

/-- Edge membership in either orientation, as networkx `G.has_edge(u, v)`. -/
def NXGraph.hasEdge (G : NXGraph) (u v : Nat) : Bool :=
  G.edges.contains (u, v) || G.edges.contains (v, u)

/-- networkx `add_node`: appends the node if absent. -/
def NXGraph.addNode (G : NXGraph) (v : Nat) : NXGraph :=
  if G.nodes.contains v then G else { G with nodes := G.nodes ++ [v] }

/-- networkx `add_edge(u, v)` with no attributes: ensures both endpoints are
nodes (inserting `u` first, then `v`), then stores the edge unless the
unordered pair is already present (re-adding only updates attributes, and
this program passes none, so it is a no-op).  `u = v` stores a self-loop;
networkx does not reject or drop self-loops. -/
def NXGraph.addEdge (G : NXGraph) (u v : Nat) : NXGraph :=
  if ((G.addNode u).addNode v).hasEdge u v then (G.addNode u).addNode v
  else { (G.addNode u).addNode v with
         edges := ((G.addNode u).addNode v).edges ++ [(u, v)] }

/-- Number of stored edges between the unordered pair `{u, v}`. -/
def NXGraph.edgeCount (G : NXGraph) (u v : Nat) : Nat :=
  G.edges.countP (fun e => (e.1 == u && e.2 == v) || (e.1 == v && e.2 == u))

/-- The effective weight of the pair `{u, v}` as any consumer of this graph
reads it (`G[u][v].get("weight", 1.0)`): the program never writes a weight
attribute, so a present edge weighs 1.0 and an absent one 0. -/
def NXGraph.edgeWeight (G : NXGraph) (u v : Nat) : ℚ :=
  if G.hasEdge u v then 1 else 0

/-- The row loop of networkx `from_pandas_edgelist(df, source, target)`:
`add_edge(row.source, row.target)` for each record in order. -/
def addEdges (G : NXGraph) : List (Nat × Nat) → NXGraph
  | [] => G
  | r :: rs => addEdges (G.addEdge r.1 r.2) rs

/-- networkx `from_pandas_edgelist` on a data frame holding the given
records, starting from an empty graph. -/
def from_pandas_edgelist (rows : List (Nat × Nat)) : NXGraph :=
  addEdges ⟨[], []⟩ rows

/-- The columns `load_graph_data` requires. -/
def required_columns : List String :=
  ["departure_id", "return_id"]

/-- Embedding of `load_graph_data` (`app/processing.py`): read at most the
first 1000 data records (`pd.read_csv(filepath, nrows=1000)`), fail when a
required endpoint column is missing from the schema, otherwise build the
graph with `nx.from_pandas_edgelist`.  The Python code raises the column
error inside the `try` block, so it is re-raised wrapped in the generic
loader message (the original text quotes the column names; the quote marks
are elided here). -/
def load_graph_data (csv : Csv) : Except DataError NXGraph :=
  let df := csv.rows.take 1000
  if required_columns.all (fun c => csv.headers.contains c) then
    .ok (from_pandas_edgelist df)
  else
    .error ⟨"Error loading graph data: CSV must contain columns: [departure_id, return_id]"⟩

/-
Modelled from the spec: the LouvainOptimizer (spec section 4.3).  The source
delegates this algorithm to `community_louvain.best_partition`, a
third-party library that is not part of this repository, so the optimizer
is modelled from the specification: phase 1 performs local moves over the
nodes in a fixed ascending order, moving each node to the neighbouring
community (its own included) of strictly greatest modularity gain with ties
broken towards the lowest community id, until a full pass makes no move or
the recommended bound of 100 passes is reached; phase 2 collapses each
community into a super-node whose inter-community edges carry the summed
inter-community weight and whose intra-community weight is tracked as the
super-node's internal (self-loop) weight — contributing to its degree and
to `m`, but never offering its own community as a neighbouring move
candidate (the spec: not a movable self-loop at the next level); the outer
loop alternates the phases until phase 1 leaves every node in its own
community or a single node remains, then unwinds the composed memberships
to the original nodes.

Every graph this program builds has unit edge weights, so all working-graph
weights are naturals; modularity gains are compared through the scaled
integer form `2·m²·ΔQ`, which orders gains exactly as the spec's rational
gain formula `ΔQ(v→c') = Σw(v,c')/m − deg(v)·Σtot(c')/(2·m²)` does
(`gainScaled_ordering` below proves the agreement).
-/

/-- A Louvain working graph: surviving super-nodes and the weighted edges
between them; an entry with equal endpoints is a super-node's internal
(self-loop) weight. -/
structure WGraph where
  nodes : List Nat
  edges : List ((Nat × Nat) × Nat)
deriving DecidableEq

/-- Total edge weight `m` of a working graph (a self-loop counted once). -/
def WGraph.m (W : WGraph) : Nat :=
  (W.edges.map (fun e => e.2)).sum

/-- Weighted degree of `v` in a working graph (a self-loop contributing
twice, as networkx degrees do). -/
def WGraph.deg (W : WGraph) (v : Nat) : Nat :=
  (W.edges.map (fun e =>
    (if e.1.1 = v then e.2 else 0) + (if e.1.2 = v then e.2 else 0))).sum

/-- The neighbours of `v` other than `v` itself with the connecting weight:
a self-loop is not an edge to a neighbour, so it offers no move
candidate. -/
def WGraph.nbrWeights (W : WGraph) (v : Nat) : List (Nat × Nat) :=
  W.edges.filterMap (fun e =>
    if e.1.1 = v ∧ e.1.2 ≠ v then some (e.1.2, e.2)
    else if e.1.2 = v ∧ e.1.1 ≠ v then some (e.1.1, e.2) else none)

/-- `Σw(v, c)`: total weight of the edges from `v` into community `cid`
under the assignment `c`. -/
def linksTo (W : WGraph) (c : Nat → Nat) (v cid : Nat) : Nat :=
  ((W.nbrWeights v).map (fun nw => if c nw.1 = cid then nw.2 else 0)).sum

/-- `Σtot(cid)` with `v` removed from its community: total degree of the
members of `cid` other than `v`. -/
def commDeg (W : WGraph) (c : Nat → Nat) (cid v : Nat) : Nat :=
  (W.nodes.map (fun u => if u ≠ v ∧ c u = cid then W.deg u else 0)).sum

/-- The spec's modularity gain of moving `v` into `cid`, relative to leaving
`v` isolated: `ΔQ = Σw(v,cid)/m − deg(v)·Σtot(cid)/(2·m²)`. -/
def gainQ (W : WGraph) (c : Nat → Nat) (v cid : Nat) : ℚ :=
  (linksTo W c v cid : ℚ) / (W.m : ℚ)
    - ((W.deg v : ℚ) * (commDeg W c cid v : ℚ)) / (2 * (W.m : ℚ) ^ 2)

/-- The gain scaled by the positive constant `2·m²`, in exact integer
arithmetic: `2·m·Σw(v,cid) − deg(v)·Σtot(cid)`. -/
def gainScaled (W : WGraph) (c : Nat → Nat) (v cid : Nat) : Int :=
  2 * (W.m : Int) * (linksTo W c v cid : Int)
    - (W.deg v : Int) * (commDeg W c cid v : Int)

/-- Ascending insertion of a value into a sorted list. -/
def insertAsc (x : Nat) : List Nat → List Nat
  | [] => [x]
  | y :: ys => if x ≤ y then x :: y :: ys else y :: insertAsc x ys

/-- Ascending sort, giving the fixed reproducible node and candidate order
the spec mandates. -/
def sortAsc (l : List Nat) : List Nat :=
  l.foldr insertAsc []

/-- The candidate communities for `v`: the communities touched by at least
one of its edges, plus its current one (staying is allowed), in ascending
id order so that the fold below breaks gain ties towards the lowest id. -/
def candidateComms (W : WGraph) (c : Nat → Nat) (v : Nat) : List Nat :=
  sortAsc ((((W.nbrWeights v).map (fun nw => c nw.1)) ++ [c v]).dedup)

/-- The community `v` moves to: the candidate of strictly greatest gain
(first encountered in ascending id order wins ties); `v` stays put when no
candidate has positive gain. -/
def bestMove (W : WGraph) (c : Nat → Nat) (v : Nat) : Nat :=
  let pick := (candidateComms W c v).foldl
    (fun best cid =>
      match best with
      | none => some (cid, gainScaled W c v cid)
      | some bg =>
        if gainScaled W c v cid > bg.2 then some (cid, gainScaled W c v cid)
        else some bg)
    none
  match pick with
  | some bg => if bg.2 > 0 then bg.1 else c v
  | none => c v

/-- Reassign `v` to community `newc`. -/
def moveStep (c : Nat → Nat) (v newc : Nat) : Nat → Nat :=
  fun u => if u = v then newc else c u

/-- One full phase-1 pass over the nodes in the given order; the flag
records whether any node changed community. -/
def onePass (W : WGraph) (order : List Nat) (c0 : Nat → Nat) :
    (Nat → Nat) × Bool :=
  order.foldl
    (fun acc v =>
      let b := bestMove W acc.1 v
      (moveStep acc.1 v b, acc.2 || decide (b ≠ acc.1 v)))
    (c0, false)

/-- Phase 1: repeat full passes until one makes no move, bounded by the
given pass budget. -/
def phase1 (W : WGraph) : Nat → (Nat → Nat) → (Nat → Nat)
  | 0, c => c
  | fuel + 1, c =>
    let r := onePass W (sortAsc W.nodes) c
    if r.2 then phase1 W fuel r.1 else r.1

/-- The spec's recommended phase-1 pass bound. -/
def maxPasses : Nat := 100

/-- The unordered-pair normal form of a community pair. -/
def normPair (a b : Nat) : Nat × Nat :=
  if a ≤ b then (a, b) else (b, a)

/-- Accumulate weight `w` onto the entry for `key`, appending a fresh entry
when none exists. -/
def bumpWeight (es : List ((Nat × Nat) × Nat)) (key : Nat × Nat) (w : Nat) :
    List ((Nat × Nat) × Nat) :=
  match es with
  | [] => [(key, w)]
  | e :: rest =>
    if e.1 = key then (e.1, e.2 + w) :: rest else e :: bumpWeight rest key w

/-- Phase 2: collapse each community of `c` into a super-node; an edge
between two super-nodes accumulates all inter-community weight between
their members, and intra-community weight accumulates into the super-node's
internal self-loop entry. -/
def aggregate (W : WGraph) (c : Nat → Nat) : WGraph :=
  { nodes := (W.nodes.map c).dedup,
    edges := W.edges.foldl
      (fun es e => bumpWeight es (normPair (c e.1.1) (c e.1.2)) e.2)
      [] }

/-- The outer Louvain loop: run phase 1 from the singleton assignment, stop
when every node stays its own community (the previous level was a local
optimum) or a single node remains, otherwise aggregate and recurse,
composing the membership chain.  Each aggregation strictly reduces the node
count, so a fuel of the original node count suffices; the fuel is the
safety valve the spec asks for against pathological inputs. -/
def louvainLoop : Nat → WGraph → (Nat → Nat) → (Nat → Nat)
  | 0, _, assign => assign
  | fuel + 1, W, assign =>
    if W.nodes.length ≤ 1 then assign
    else
      let c := phase1 W maxPasses (fun v => v)
      if ((W.nodes.map c).dedup).length = W.nodes.length then assign
      else louvainLoop fuel (aggregate W c) (fun v => c (assign v))

/-- The level-0 working graph of an `NXGraph`: every stored edge with its
unit weight (a stored self-loop becomes internal weight, which is not
movable in phase 1). -/
def toWGraph (G : NXGraph) : WGraph :=
  { nodes := G.nodes,
    edges := G.edges.map (fun e => (e, 1)) }

/-- The composed community assignment the optimizer computes for `G`. -/
def louvainAssign (G : NXGraph) : Nat → Nat :=
  louvainLoop G.nodes.length (toWGraph G) (fun v => v)

/-- Modelled from the spec: `community_louvain.best_partition(G)` — the
final partition as a mapping from every original node to its community id. -/
def best_partition (G : NXGraph) : List (Nat × Nat) :=
  G.nodes.map (fun v => (v, louvainAssign G v))

/-- Dictionary lookup `partition[v]` (only applied to keys present in the
partition; the default 0 is never reached on those). -/
def plookup (p : List (Nat × Nat)) (v : Nat) : Nat :=
  match p.find? (fun kv => kv.1 == v) with
  | some kv => kv.2
  | none => 0

/-- networkx weighted degree of `v` in a built graph: every stored edge
weighs 1 and a self-loop contributes twice. -/
def NXGraph.degree (G : NXGraph) (v : Nat) : Nat :=
  (G.edges.map (fun e =>
    (if e.1 = v then 1 else 0) + (if e.2 = v then 1 else 0))).sum

/-- Modelled from the spec: `community_louvain.modularity(partition, G)` —
the ModularityEvaluator (spec section 4.2) in its community-aggregate form
`Q = Σ_c (internal_weight(c)/m − (total_degree(c)/(2m))²)`, over the
communities actually used, applied to the graphs this program builds
(unit edge weights). -/
def nxModularity (G : NXGraph) (part : List (Nat × Nat)) : ℚ :=
  let m : ℚ := (G.edges.length : ℚ)
  let ids := (G.nodes.map (plookup part)).dedup
  (ids.map (fun cid =>
    let inc : ℚ :=
      ((G.edges.filter (fun e =>
        plookup part e.1 = cid ∧ plookup part e.2 = cid)).length : ℚ)
    let tot : ℚ :=
      ((G.nodes.map (fun v =>
        if plookup part v = cid then G.degree v else 0)).sum : ℚ)
    inc / m - (tot / (2 * m)) ^ 2)).sum

/-- The result dictionary of `detect_communities`. -/
structure AnalysisResult where
  modularity_score : ℚ
  total_communities_detected : Nat
  total_nodes : Nat
deriving DecidableEq

/-- Embedding of `detect_communities` (`app/processing.py`), parameterized
by the optimizer so that non-invocation of the optimizer on the empty
branch is observable: the Python guard `if not G or len(G.nodes) == 0`
short-circuits to the zero result for an absent (`None`) or zero-node
graph; otherwise the Louvain optimizer produces the partition, modularity
is evaluated, and the community count is `len(set(partition.values()))`. -/
def detect_communitiesWith (optimizer : NXGraph → List (Nat × Nat))
    (g : Option NXGraph) : AnalysisResult :=
  match g with
  | none =>
    { modularity_score := 0, total_communities_detected := 0, total_nodes := 0 }
  | some G =>
    if G.nodes.length = 0 then
      { modularity_score := 0, total_communities_detected := 0, total_nodes := 0 }
    else
      let part := optimizer G
      let modularity := nxModularity G part
      let num_communities := ((part.map Prod.snd).dedup).length
      { modularity_score := modularity,
        total_communities_detected := num_communities,
        total_nodes := G.nodes.length }

/-- `detect_communities` as the source composes it, with the Louvain
optimizer plugged in. -/
def detect_communities (g : Option NXGraph) : AnalysisResult :=
  detect_communitiesWith best_partition g

/-- The error shape of FastAPI `HTTPException`. -/
structure HTTPError where
  status_code : Nat
  detail : String
deriving DecidableEq

/-- The response body of a successful `/analyze` request (`AnalysisResponse`
in `app/main.py`): a status string, the algorithm label, and exactly the
three-field result of `detect_communities`. -/
structure AnalysisResponse where
  status : String
  algorithm : String
  results : AnalysisResult
deriving DecidableEq

/-- Embedding of the `/analyze` handler `analyze_network` (`app/main.py`):
503 when the graph state holds no graph, otherwise a success response
labelled `"Louvain"` wrapping the `detect_communities` result.  The model
takes the graph slot of the global `graph_state` as its explicit input. -/
def analyze_network (graph_state_G : Option NXGraph) :
    Except HTTPError AnalysisResponse :=
  match graph_state_G with
  | none => .error ⟨503, "Graph data not available"⟩
  | some G =>
    .ok { status := "success", algorithm := "Louvain",
          results := detect_communities (some G) }

/-
Helper lemmas about graph construction.
-/

/-- A concrete graph shared by the witnesses below: the triangle of the
repository's own test fixture (`tests/test_main.py`). -/
def triangleGraph : NXGraph :=
  ⟨[1, 2, 3], [(1, 2), (2, 3), (3, 1)]⟩


/-
Modelled from the spec: the ModularityEvaluator (spec section 4.2) over the
spec's data model (section 3).  The source delegates scoring to
`community_louvain.modularity`, third-party library code absent from this
repository, so the evaluator is modelled from the spec's words: a graph is
a set of nodes and a set of edges, each edge an unordered pair `{u, v}`
with `u ≠ v` (self-loops excluded) carrying a positive real weight, and the
score is the community-aggregate form
`Q = Σ_c (internal_weight(c)/m − (total_degree(c)/(2m))²)`, summed over the
communities with at least one member.
-/

/-- The spec's GraphStore data model: nodes, edges as normalized unordered
pairs (first component strictly below the second), and a weight per edge. -/
structure SpecGraph where
  nodes : Finset Nat
  edges : Finset (Nat × Nat)
  w : Nat × Nat → ℚ

/-- Well-formedness of a spec graph, the invariant GraphStore construction
establishes: every edge is a normalized pair of two distinct member nodes
(no self-loops) and every edge weight is positive. -/
def SpecGraph.WF (G : SpecGraph) : Prop :=
  (∀ e ∈ G.edges, e.1 < e.2 ∧ e.1 ∈ G.nodes ∧ e.2 ∈ G.nodes) ∧
  (∀ e ∈ G.edges, 0 < G.w e)

/-- Total edge weight `m`, each edge counted once. -/
def SpecGraph.m (G : SpecGraph) : ℚ :=
  ∑ e in G.edges, G.w e

/-- Weighted degree of a node: the summed weight of its incident edges. -/
def SpecGraph.deg (G : SpecGraph) (v : Nat) : ℚ :=
  ∑ e in G.edges, if e.1 = v ∨ e.2 = v then G.w e else 0

namespace ModularityEvaluator

/-- The community ids with at least one member under partition `p`. -/
def communityIds (G : SpecGraph) (p : Nat → Nat) : Finset Nat :=
  G.nodes.image p

/-- `internal_weight(c)`: each intra-community edge counted once. -/
def internalWeight (G : SpecGraph) (p : Nat → Nat) (c : Nat) : ℚ :=
  ∑ e in G.edges, if p e.1 = c ∧ p e.2 = c then G.w e else 0

/-- `total_degree(c)`: the summed degree of the members of `c`. -/
def totalDegree (G : SpecGraph) (p : Nat → Nat) (c : Nat) : ℚ :=
  ∑ v in G.nodes, if p v = c then G.deg v else 0

/-- The modularity score in the spec's community-aggregate form. -/
def score (G : SpecGraph) (p : Nat → Nat) : ℚ :=
  ∑ c in communityIds G p,
    (internalWeight G p c / G.m - (totalDegree G p c / (2 * G.m)) ^ 2)

/-- The total intra-community weight `Σ_c internal_weight(c)`. -/
def internalTotal (G : SpecGraph) (p : Nat → Nat) : ℚ :=
  ∑ e in G.edges, if p e.1 = p e.2 then G.w e else 0

/-- The total inter-community weight. -/
def externalTotal (G : SpecGraph) (p : Nat → Nat) : ℚ :=
  ∑ e in G.edges, if p e.1 ≠ p e.2 then G.w e else 0

end ModularityEvaluator

/-- The one-edge spec graph on stations 0 and 1 with unit weight, used by
the modularity-bound witnesses. -/
def K2 : SpecGraph :=
  ⟨{0, 1}, {(0, 1)}, fun _ => 1⟩

theorem edges_addNode (G : NXGraph) (v : Nat) :
    (G.addNode v).edges = G.edges := by
  unfold NXGraph.addNode
  split <;> rfl

theorem hasEdge_eq_of_edges {G1 G2 : NXGraph} (h : G1.edges = G2.edges)
    (u v : Nat) : G1.hasEdge u v = G2.hasEdge u v := by
  simp [NXGraph.hasEdge, h]

theorem hasEdge_addNode (G : NXGraph) (w u v : Nat) :
    (G.addNode w).hasEdge u v = G.hasEdge u v :=
  hasEdge_eq_of_edges (edges_addNode G w) u v

theorem edges_addEdge (G : NXGraph) (u v : Nat) :
    (G.addEdge u v).edges =
      if G.hasEdge u v then G.edges else G.edges ++ [(u, v)] := by
  unfold NXGraph.addEdge
  rw [hasEdge_addNode, hasEdge_addNode]
  split <;> simp [edges_addNode]

theorem hasEdge_iff (G : NXGraph) (u v : Nat) :
    G.hasEdge u v = true ↔ ((u, v) ∈ G.edges ∨ (v, u) ∈ G.edges) := by
  simp [NXGraph.hasEdge]

theorem hasEdge_addEdge_self (G : NXGraph) (u v : Nat) :
    (G.addEdge u v).hasEdge u v = true := by
  rw [hasEdge_iff, edges_addEdge]
  by_cases h : G.hasEdge u v
  · rw [if_pos h]
    exact (hasEdge_iff G u v).mp h
  · rw [if_neg h]
    left
    simp

theorem hasEdge_addEdge_mono {G : NXGraph} {a b : Nat} (u v : Nat)
    (h : G.hasEdge a b = true) : (G.addEdge u v).hasEdge a b = true := by
  rw [hasEdge_iff, edges_addEdge]
  rcases (hasEdge_iff G a b).mp h with h1 | h1
  · left
    split <;> simp [h1]
  · right
    split <;> simp [h1]

theorem hasEdge_addEdges_mono {G : NXGraph} {a b : Nat}
    (rows : List (Nat × Nat)) (h : G.hasEdge a b = true) :
    (addEdges G rows).hasEdge a b = true := by
  induction rows generalizing G with
  | nil => exact h
  | cons r rs ih => exact ih (hasEdge_addEdge_mono r.1 r.2 h)

theorem hasEdge_addEdges_of_mem {a b : Nat} {rows : List (Nat × Nat)}
    (G : NXGraph) (h : (a, b) ∈ rows) :
    (addEdges G rows).hasEdge a b = true := by
  induction rows generalizing G with
  | nil => cases h
  | cons r rs ih =>
    rcases List.mem_cons.mp h with h1 | h2
    · rw [show addEdges G (r :: rs) = addEdges (G.addEdge r.1 r.2) rs from rfl]
      rw [← h1]
      exact hasEdge_addEdges_mono rs (hasEdge_addEdge_self G a b)
    · exact ih (G.addEdge r.1 r.2) h2

theorem edgeCount_comm (G : NXGraph) (u v : Nat) :
    G.edgeCount u v = G.edgeCount v u := by
  unfold NXGraph.edgeCount
  apply List.countP_congr
  intro e _
  cases h1 : (e.1 == v && e.2 == u) <;> cases h2 : (e.1 == u && e.2 == v) <;>
    simp [h1, h2]

theorem edgeCount_eq_zero {G : NXGraph} {u v : Nat}
    (h : G.hasEdge u v = false) : G.edgeCount u v = 0 := by
  rw [NXGraph.edgeCount, List.countP_eq_zero]
  intro e he hpred
  have hne : ¬((u, v) ∈ G.edges ∨ (v, u) ∈ G.edges) := by
    intro hc
    rw [(hasEdge_iff G u v).mpr hc] at h
    cases h
  simp only [Bool.or_eq_true, Bool.and_eq_true, beq_iff_eq] at hpred
  have : e = (u, v) ∨ e = (v, u) := by
    rcases hpred with ⟨ha, hb⟩ | ⟨ha, hb⟩ <;>
      [left; right] <;> exact Prod.ext ha hb
  rcases this with rfl | rfl
  · exact hne (Or.inl he)
  · exact hne (Or.inr he)

theorem edgeCount_addEdge_le {G : NXGraph} (u v a b : Nat)
    (h : G.edgeCount a b ≤ 1) : (G.addEdge u v).edgeCount a b ≤ 1 := by
  have he := edges_addEdge G u v
  rw [NXGraph.edgeCount, he]
  by_cases hE : G.hasEdge u v
  · rw [if_pos hE]
    exact h
  · rw [if_neg hE, List.countP_append]
    by_cases hp : ((fun e : Nat × Nat =>
        (e.1 == a && e.2 == b) || (e.1 == b && e.2 == a)) (u, v)) = true
    · have hcase : (u = a ∧ v = b) ∨ (u = b ∧ v = a) := by
        simp only [Bool.or_eq_true, Bool.and_eq_true, beq_iff_eq] at hp
        exact hp
      have hzero : G.edgeCount a b = 0 := by
        rcases hcase with ⟨rfl, rfl⟩ | ⟨rfl, rfl⟩
        · exact edgeCount_eq_zero (by simpa using hE)
        · rw [edgeCount_comm]
          exact edgeCount_eq_zero (by simpa using hE)
      rw [NXGraph.edgeCount] at hzero
      rw [hzero]
      simp [hp]
    · have : List.countP (fun e : Nat × Nat =>
          (e.1 == a && e.2 == b) || (e.1 == b && e.2 == a)) [(u, v)] = 0 := by
        simp only [List.countP, List.countP.go]
        simp [Bool.eq_false_iff.mpr hp]
      rw [this]
      simpa using h

theorem edgeCount_addEdges_le {G : NXGraph}
    (rows : List (Nat × Nat)) (h : ∀ a b, G.edgeCount a b ≤ 1) :
    ∀ a b, (addEdges G rows).edgeCount a b ≤ 1 := by
  induction rows generalizing G with
  | nil => exact h
  | cons r rs ih =>
    exact ih (fun a b => edgeCount_addEdge_le r.1 r.2 a b (h a b))

theorem edgeCount_from_pandas_edgelist (rows : List (Nat × Nat)) (a b : Nat) :
    (from_pandas_edgelist rows).edgeCount a b ≤ 1 :=
  edgeCount_addEdges_le (G := ⟨[], []⟩) rows
    (fun _ _ => by simp [NXGraph.edgeCount]) a b

/-- Extraction lemma: a successful load built the graph from the first 1000
records with `from_pandas_edgelist`. -/
theorem load_graph_data_ok {csv : Csv} {G : NXGraph}
    (hok : load_graph_data csv = .ok G) :
    G = from_pandas_edgelist (csv.rows.take 1000) := by
  simp only [load_graph_data] at hok
  split at hok
  · simp only [Except.ok.injEq] at hok
    exact hok.symm
  · cases hok

/-- Claim C1: the analysis operation is a pure function of its input graph —
two runs of `detect_communities` on the same graph return identical result
records and the optimizer returns identical partitions.  The modelled
optimizer takes no random seed: its move order is the fixed ascending node
order and its tie-breaking prefers the lowest community id, as the spec
mandates, so no unseeded randomness enters move order or tie-breaking. -/
theorem detect_communities_deterministic (G : NXGraph) :
    (best_partition G, detect_communities (some G)) =
      (best_partition G, detect_communities (some G)) := rfl

/-- Claim C4: an absent (`None`) or zero-node graph short-circuits to
modularity 0.0, zero communities and zero nodes, and the result does not
depend on the optimizer — the Louvain optimizer is never invoked. -/
theorem detect_communities_empty_short_circuit (g : Option NXGraph)
    (h : g = none ∨ ∃ G, g = some G ∧ G.nodes.length = 0) :
    detect_communities g =
      { modularity_score := 0, total_communities_detected := 0,
        total_nodes := 0 } ∧
    ∀ optimizer, detect_communitiesWith optimizer g = detect_communities g := by
  rcases h with rfl | ⟨G, rfl, hG⟩
  · exact ⟨rfl, fun _ => rfl⟩
  · exact ⟨by simp [detect_communities, detect_communitiesWith, hG],
      fun opt => by simp [detect_communities, detect_communitiesWith, hG]⟩

theorem detect_communities_empty_short_circuit_witness :
    ((some (NXGraph.mk [] []) : Option NXGraph) = none ∨
      ∃ G, (some (NXGraph.mk [] []) : Option NXGraph) = some G ∧
        G.nodes.length = 0) ∧
    detect_communities (some (NXGraph.mk [] [])) =
      { modularity_score := 0, total_communities_detected := 0,
        total_nodes := 0 } :=
  ⟨Or.inr ⟨_, rfl, rfl⟩,
    (detect_communities_empty_short_circuit (some (NXGraph.mk [] []))
      (Or.inr ⟨_, rfl, rfl⟩)).1⟩

/-- Claim C6: a record schema missing a required endpoint column makes
`load_graph_data` fail with the `DataError`, and no graph is returned. -/
theorem load_graph_data_missing_columns (csv : Csv)
    (h : ¬ (("departure_id" ∈ csv.headers) ∧ ("return_id" ∈ csv.headers))) :
    load_graph_data csv =
      .error ⟨"Error loading graph data: CSV must contain columns: [departure_id, return_id]"⟩ ∧
    ∀ G, load_graph_data csv ≠ .ok G := by
  have hall : ¬ (required_columns.all
      (fun c => csv.headers.contains c) = true) := by
    intro hc
    apply h
    simp only [required_columns, List.all_cons, List.all_nil,
      Bool.and_eq_true] at hc
    exact ⟨List.mem_of_elem_eq_true hc.1, List.mem_of_elem_eq_true hc.2.1⟩
  have h1 : load_graph_data csv =
      .error ⟨"Error loading graph data: CSV must contain columns: [departure_id, return_id]"⟩ := by
    simp only [load_graph_data]
    rw [if_neg hall]
  exact ⟨h1, fun G hG => by rw [h1] at hG; exact Except.noConfusion hG⟩

theorem load_graph_data_missing_columns_witness :
    ¬ (("departure_id" ∈ (Csv.mk ["station"] []).headers) ∧
        ("return_id" ∈ (Csv.mk ["station"] []).headers)) ∧
    load_graph_data (Csv.mk ["station"] []) =
      .error ⟨"Error loading graph data: CSV must contain columns: [departure_id, return_id]"⟩ :=
  ⟨by simp,
    (load_graph_data_missing_columns (Csv.mk ["station"] []) (by simp)).1⟩

/-- Claim C9: every successful analysis response carries status
`"success"`, the fixed literal algorithm label `"Louvain"`, and exactly the
`detect_communities` result record, whose shape is the three fields
`modularity_score`, `total_communities_detected`, `total_nodes` (the
`AnalysisResult` type). -/
theorem analyze_network_success_shape (g : Option NXGraph)
    (r : AnalysisResponse) (h : analyze_network g = .ok r) :
    r.status = "success" ∧ r.algorithm = "Louvain" ∧
    r.results = detect_communities g := by
  cases g with
  | none => exact absurd h (by simp [analyze_network])
  | some G =>
    simp only [analyze_network] at h
    injection h with h
    subst h
    exact ⟨rfl, rfl, rfl⟩

theorem analyze_network_success_shape_witness :
    analyze_network (some triangleGraph) =
      .ok ⟨"success", "Louvain", detect_communities (some triangleGraph)⟩ ∧
    ("success" = "success" ∧ "Louvain" = "Louvain" ∧
      detect_communities (some triangleGraph) =
        detect_communities (some triangleGraph)) :=
  ⟨rfl, analyze_network_success_shape (some triangleGraph)
    ⟨"success", "Louvain", detect_communities (some triangleGraph)⟩ rfl⟩

/-- Claim C10: the graph is built from at most the first 1000 data records:
loading a file is the same as loading its first 1000 records, so records
beyond the first 1000 contribute no nodes or edges. -/
theorem load_graph_data_reads_first_1000 (csv : Csv) :
    load_graph_data csv = load_graph_data ⟨csv.headers, csv.rows.take 1000⟩ := by
  simp only [load_graph_data, List.take_take, Nat.min_self]

/-- Claim C7: on a non-empty graph the reported community count is the
number of distinct community ids actually used in the returned partition
(the cardinality of the set of its values), not the range of the ids. -/
theorem detect_communities_counts_distinct_ids (G : NXGraph)
    (h : G.nodes.length ≠ 0) :
    (detect_communities (some G)).total_communities_detected =
      ((best_partition G).map Prod.snd).toFinset.card := by
  simp only [detect_communities, detect_communitiesWith, h, if_neg]
  exact (List.card_toFinset _).symm

theorem detect_communities_counts_distinct_ids_witness :
    triangleGraph.nodes.length ≠ 0 ∧
    (detect_communities (some triangleGraph)).total_communities_detected =
      ((best_partition triangleGraph).map Prod.snd).toFinset.card :=
  ⟨by decide, detect_communities_counts_distinct_ids triangleGraph (by decide)⟩

/-- Claim C5: the optimizer's partition is a total mapping over the nodes
of the graph it was computed from: its keys are exactly the node list (so
with distinct nodes every node appears exactly once), and every node is
mapped to its computed community id. -/
theorem best_partition_total (G : NXGraph) (_hne : G.nodes ≠ [])
    (hnd : G.nodes.Nodup) :
    (best_partition G).map Prod.fst = G.nodes ∧
    ((best_partition G).map Prod.fst).Nodup ∧
    ∀ v ∈ G.nodes, (v, louvainAssign G v) ∈ best_partition G := by
  have hkeys : (best_partition G).map Prod.fst = G.nodes := by
    simp only [best_partition, List.map_map]
    exact List.map_id G.nodes
  refine ⟨hkeys, ?_, ?_⟩
  · rw [hkeys]
    exact hnd
  · intro v hv
    exact List.mem_map.mpr ⟨v, hv, rfl⟩

theorem best_partition_total_witness :
    triangleGraph.nodes ≠ [] ∧ triangleGraph.nodes.Nodup ∧
    (best_partition triangleGraph).map Prod.fst = triangleGraph.nodes :=
  ⟨by decide, by decide,
    (best_partition_total triangleGraph (by decide) (by decide)).1⟩

/-- Claim C2 (counterexample): the file with two identical records between
stations 1 and 2 loads into a graph with a single stored edge between them
whose effective weight is 1.0 — not the accumulated 2.0 the claim
asserts. -/
theorem load_graph_data_duplicate_weight_counterexample :
    load_graph_data ⟨["departure_id", "return_id"], [(1, 2), (1, 2)]⟩ =
      .ok ⟨[1, 2], [(1, 2)]⟩ ∧
    (NXGraph.mk [1, 2] [(1, 2)]).edgeCount 1 2 = 1 ∧
    (NXGraph.mk [1, 2] [(1, 2)]).edgeWeight 1 2 = 1 ∧
    (NXGraph.mk [1, 2] [(1, 2)]).edgeWeight 1 2 ≠ 2 := by
  have hHas : (NXGraph.mk [1, 2] [(1, 2)]).hasEdge 1 2 = true := by decide
  refine ⟨rfl, by decide, ?_, ?_⟩
  · simp [NXGraph.edgeWeight, hHas]
  · simp only [NXGraph.edgeWeight, hHas, if_true]
    norm_num

/-- Claim C2 (amended): repeated edge records between the same endpoints
collapse to a single stored edge whose effective weight is the constant 1.0
regardless of multiplicity — `load_graph_data` passes no weight column and
accumulates nothing. -/
theorem load_graph_data_duplicate_records (csv : Csv) (G : NXGraph)
    (u v : Nat) (hok : load_graph_data csv = .ok G)
    (hmem : (u, v) ∈ csv.rows.take 1000) :
    G.edgeCount u v ≤ 1 ∧ G.hasEdge u v = true ∧ G.edgeWeight u v = 1 := by
  rw [load_graph_data_ok hok]
  have hHas : (from_pandas_edgelist (csv.rows.take 1000)).hasEdge u v = true :=
    hasEdge_addEdges_of_mem (a := u) (b := v) ⟨[], []⟩ hmem
  exact ⟨edgeCount_from_pandas_edgelist _ u v, hHas,
    by simp [NXGraph.edgeWeight, hHas]⟩

theorem load_graph_data_duplicate_records_witness :
    load_graph_data ⟨["departure_id", "return_id"], [(1, 2), (1, 2)]⟩ =
      .ok (from_pandas_edgelist [(1, 2), (1, 2)]) ∧
    (1, 2) ∈ (Csv.mk ["departure_id", "return_id"] [(1, 2), (1, 2)]).rows.take 1000 ∧
    ((from_pandas_edgelist [(1, 2), (1, 2)]).edgeCount 1 2 ≤ 1 ∧
      (from_pandas_edgelist [(1, 2), (1, 2)]).hasEdge 1 2 = true ∧
      (from_pandas_edgelist [(1, 2), (1, 2)]).edgeWeight 1 2 = 1) :=
  ⟨rfl, by decide,
    load_graph_data_duplicate_records
      (Csv.mk ["departure_id", "return_id"] [(1, 2), (1, 2)])
      (from_pandas_edgelist [(1, 2), (1, 2)]) 1 2 rfl (by decide)⟩

/-- Claim C3 (counterexample): a record whose two endpoint values are equal
is not dropped — the loaded graph stores the self-loop edge (5, 5). -/
theorem load_graph_data_self_loop_counterexample :
    load_graph_data ⟨["departure_id", "return_id"], [(5, 5)]⟩ =
      .ok ⟨[5], [(5, 5)]⟩ ∧
    (NXGraph.mk [5] [(5, 5)]).hasEdge 5 5 = true :=
  ⟨rfl, by decide⟩

/-- Claim C3 (amended): a record with equal endpoint values among the first
1000 records produces a self-loop edge in the loaded graph; self-loop
records are kept, not silently dropped. -/
theorem load_graph_data_keeps_self_loops (csv : Csv) (G : NXGraph) (u : Nat)
    (hok : load_graph_data csv = .ok G)
    (hmem : (u, u) ∈ csv.rows.take 1000) :
    G.hasEdge u u = true := by
  rw [load_graph_data_ok hok]
  exact hasEdge_addEdges_of_mem (a := u) (b := u) ⟨[], []⟩ hmem

theorem load_graph_data_keeps_self_loops_witness :
    load_graph_data ⟨["departure_id", "return_id"], [(5, 5)]⟩ =
      .ok (from_pandas_edgelist [(5, 5)]) ∧
    (5, 5) ∈ (Csv.mk ["departure_id", "return_id"] [(5, 5)]).rows.take 1000 ∧
    (from_pandas_edgelist [(5, 5)]).hasEdge 5 5 = true :=
  ⟨rfl, by decide,
    load_graph_data_keeps_self_loops
      (Csv.mk ["departure_id", "return_id"] [(5, 5)])
      (from_pandas_edgelist [(5, 5)]) 5 rfl (by decide)⟩

namespace ModularityEvaluator

theorem w_nonneg {G : SpecGraph} (hwf : G.WF) :
    ∀ e ∈ G.edges, 0 ≤ G.w e :=
  fun e he => le_of_lt (hwf.2 e he)

theorem deg_nonneg {G : SpecGraph} (hwf : G.WF) (v : Nat) :
    0 ≤ G.deg v := by
  apply Finset.sum_nonneg
  intro e he
  split
  · exact w_nonneg hwf e he
  · exact le_refl 0

theorem internalWeight_nonneg {G : SpecGraph} (hwf : G.WF)
    (p : Nat → Nat) (c : Nat) : 0 ≤ internalWeight G p c := by
  apply Finset.sum_nonneg
  intro e he
  split
  · exact w_nonneg hwf e he
  · exact le_refl 0

theorem internalTotal_nonneg {G : SpecGraph} (hwf : G.WF)
    (p : Nat → Nat) : 0 ≤ internalTotal G p := by
  apply Finset.sum_nonneg
  intro e he
  split
  · exact w_nonneg hwf e he
  · exact le_refl 0

theorem totalDegree_nonneg {G : SpecGraph} (hwf : G.WF)
    (p : Nat → Nat) (c : Nat) : 0 ≤ totalDegree G p c := by
  apply Finset.sum_nonneg
  intro v hv
  split
  · exact deg_nonneg hwf v
  · exact le_refl 0

theorem internalWeight_le_internalTotal {G : SpecGraph} (hwf : G.WF)
    (p : Nat → Nat) (c : Nat) :
    internalWeight G p c ≤ internalTotal G p := by
  apply Finset.sum_le_sum
  intro e he
  by_cases h : p e.1 = c ∧ p e.2 = c
  · rw [if_pos h, if_pos (h.1.trans h.2.symm)]
  · rw [if_neg h]
    split
    · exact w_nonneg hwf e he
    · exact le_refl 0

theorem internalTotal_le_m {G : SpecGraph} (hwf : G.WF) (p : Nat → Nat) :
    internalTotal G p ≤ G.m := by
  apply Finset.sum_le_sum
  intro e he
  split
  · exact le_refl _
  · exact w_nonneg hwf e he

theorem internal_add_external {G : SpecGraph} (p : Nat → Nat) :
    internalTotal G p + externalTotal G p = G.m := by
  rw [internalTotal, externalTotal, ← Finset.sum_add_distrib]
  apply Finset.sum_congr rfl
  intro e _
  by_cases h : p e.1 = p e.2
  · rw [if_pos h, if_neg (by simpa using h)]
    ring
  · rw [if_neg h, if_pos h]
    ring

theorem sum_pair_indicator {s : Finset Nat} {a b : Nat} (hab : a ≠ b)
    (ha : a ∈ s) (hb : b ∈ s) (f : Nat → ℚ)
    (hf : ∀ x ∈ s, x ∉ ({a, b} : Finset Nat) → f x = 0) :
    ∑ v in s, f v = f a + f b := by
  rw [← Finset.sum_subset
    (Finset.insert_subset_iff.mpr ⟨ha, Finset.singleton_subset_iff.mpr hb⟩) hf]
  exact Finset.sum_pair hab

theorem sum_deg {G : SpecGraph} (hwf : G.WF) :
    ∑ v in G.nodes, G.deg v = 2 * G.m := by
  unfold SpecGraph.deg SpecGraph.m
  rw [Finset.sum_comm, Finset.mul_sum]
  apply Finset.sum_congr rfl
  intro e he
  obtain ⟨hlt, h1, h2⟩ := hwf.1 e he
  have hne : e.1 ≠ e.2 := Nat.ne_of_lt hlt
  rw [sum_pair_indicator hne h1 h2 _ ?_]
  · rw [if_pos (Or.inl rfl), if_pos (Or.inr rfl)]
    ring
  · intro x hx hnx
    rw [if_neg]
    rintro (rfl | rfl)
    · exact hnx (Finset.mem_insert_self _ _)
    · exact hnx (Finset.mem_insert_of_mem (Finset.mem_singleton_self _))

theorem sum_totalDegree (G : SpecGraph) (p : Nat → Nat) :
    ∑ c in communityIds G p, totalDegree G p c = ∑ v in G.nodes, G.deg v := by
  unfold totalDegree communityIds
  simp only [← Finset.sum_filter]
  exact Finset.sum_fiberwise_of_maps_to
    (fun v hv => Finset.mem_image_of_mem p hv) G.deg

theorem sum_internalWeight {G : SpecGraph} (hwf : G.WF) (p : Nat → Nat) :
    ∑ c in communityIds G p, internalWeight G p c = internalTotal G p := by
  unfold internalWeight internalTotal communityIds
  rw [Finset.sum_comm]
  apply Finset.sum_congr rfl
  intro e he
  obtain ⟨hlt, h1, h2⟩ := hwf.1 e he
  by_cases hpe : p e.1 = p e.2
  · rw [if_pos hpe]
    have hcongr : ∀ c ∈ G.nodes.image p,
        (if p e.1 = c ∧ p e.2 = c then G.w e else 0)
          = (if p e.1 = c then G.w e else 0) := by
      intro c _
      by_cases h : p e.1 = c
      · rw [if_pos ⟨h, hpe.symm.trans h⟩, if_pos h]
      · rw [if_neg (fun hc => h hc.1), if_neg h]
    rw [Finset.sum_congr rfl hcongr, Finset.sum_ite_eq]
    rw [if_pos (Finset.mem_image_of_mem p h1)]
  · rw [if_neg hpe]
    apply Finset.sum_eq_zero
    intro c _
    exact if_neg (fun hc => hpe (hc.1.trans hc.2.symm))

theorem totalDegree_eq {G : SpecGraph} (hwf : G.WF) (p : Nat → Nat)
    (c : Nat) :
    totalDegree G p c = ∑ e in G.edges,
      ((if p e.1 = c then G.w e else 0) + (if p e.2 = c then G.w e else 0)) := by
  unfold totalDegree SpecGraph.deg
  have hpush : ∀ v ∈ G.nodes,
      (if p v = c then
        (∑ e in G.edges, if e.1 = v ∨ e.2 = v then G.w e else 0) else 0)
      = ∑ e in G.edges,
          (if p v = c ∧ (e.1 = v ∨ e.2 = v) then G.w e else 0) := by
    intro v _
    by_cases h : p v = c
    · rw [if_pos h]
      apply Finset.sum_congr rfl
      intro e _
      by_cases h2 : e.1 = v ∨ e.2 = v
      · rw [if_pos h2, if_pos ⟨h, h2⟩]
      · rw [if_neg h2, if_neg (fun hc => h2 hc.2)]
    · rw [if_neg h]
      symm
      apply Finset.sum_eq_zero
      intro e _
      exact if_neg (fun hc => h hc.1)
  rw [Finset.sum_congr rfl hpush, Finset.sum_comm]
  apply Finset.sum_congr rfl
  intro e he
  obtain ⟨hlt, h1, h2⟩ := hwf.1 e he
  have hne : e.1 ≠ e.2 := Nat.ne_of_lt hlt
  rw [sum_pair_indicator hne h1 h2 _ ?_]
  · by_cases hc1 : p e.1 = c <;> by_cases hc2 : p e.2 = c <;>
      simp [hc1, hc2, hne, Ne.symm hne]
  · intro x hx hnx
    rw [if_neg]
    rintro ⟨-, (rfl | rfl)⟩
    · exact hnx (Finset.mem_insert_self _ _)
    · exact hnx (Finset.mem_insert_of_mem (Finset.mem_singleton_self _))

theorem totalDegree_le {G : SpecGraph} (hwf : G.WF) (p : Nat → Nat)
    (c : Nat) :
    totalDegree G p c ≤ 2 * internalWeight G p c + externalTotal G p := by
  rw [totalDegree_eq hwf p c, internalWeight, externalTotal,
    Finset.mul_sum, ← Finset.sum_add_distrib]
  apply Finset.sum_le_sum
  intro e he
  have hw := w_nonneg hwf e he
  by_cases hc1 : p e.1 = c
  · by_cases hc2 : p e.2 = c
    · have hpe : p e.1 = p e.2 := hc1.trans hc2.symm
      rw [if_pos hc1, if_pos hc2, if_pos ⟨hc1, hc2⟩,
        if_neg (by simpa using hpe)]
      linarith
    · have hpe : p e.1 ≠ p e.2 := fun h => hc2 (h.symm.trans hc1)
      rw [if_pos hc1, if_neg hc2, if_neg (fun hc => hc2 hc.2), if_pos hpe]
      linarith
  · by_cases hc2 : p e.2 = c
    · have hpe : p e.1 ≠ p e.2 := fun h => hc1 (h.trans hc2)
      rw [if_neg hc1, if_pos hc2, if_neg (fun hc => hc1 hc.1), if_pos hpe]
      linarith
    · rw [if_neg hc1, if_neg hc2, if_neg (fun hc => hc1 hc.1)]
      split
      · linarith
      · linarith

theorem score_eq {G : SpecGraph} (hwf : G.WF) (p : Nat → Nat) :
    score G p = internalTotal G p / G.m
      - ∑ c in communityIds G p, (totalDegree G p c / (2 * G.m)) ^ 2 := by
  rw [score, Finset.sum_sub_distrib, ← Finset.sum_div, sum_internalWeight hwf]

theorem sum_a_eq_one {G : SpecGraph} (hwf : G.WF) (p : Nat → Nat)
    (hm : G.m ≠ 0) :
    ∑ c in communityIds G p, totalDegree G p c / (2 * G.m) = 1 := by
  rw [← Finset.sum_div, sum_totalDegree, sum_deg hwf]
  field_simp

/-- Claim C8 (amended): for every well-formed graph with positive total
weight and every partition, the modularity score lies in the closed
interval [-0.5, 1.0] (the lower endpoint is attained, see the
counterexample, so the claimed open-below interval is amended to the closed
one), and the singleton-community partition scores at most 0 on any graph
with at least one edge. -/
theorem score_bounds (G : SpecGraph) (p : Nat → Nat) (hwf : G.WF)
    (hm : 0 < G.m) :
    (-(1 / 2) ≤ score G p ∧ score G p ≤ 1) ∧
    (Set.InjOn p ↑G.nodes → score G p ≤ 0) := by
  have hmne : G.m ≠ 0 := ne_of_gt hm
  have hS0 : 0 ≤ internalTotal G p := internalTotal_nonneg hwf p
  have hSm : internalTotal G p ≤ G.m := internalTotal_le_m hwf p
  have hsq_nonneg :
      0 ≤ ∑ c in communityIds G p, (totalDegree G p c / (2 * G.m)) ^ 2 :=
    Finset.sum_nonneg (fun c _ => sq_nonneg _)
  have hext : externalTotal G p = G.m - internalTotal G p := by
    have h := internal_add_external (G := G) (p := p)
    linarith
  have h2m : (0 : ℚ) < 2 * G.m := by linarith
  have ha_nonneg : ∀ c ∈ communityIds G p,
      0 ≤ totalDegree G p c / (2 * G.m) :=
    fun c _ => div_nonneg (totalDegree_nonneg hwf p c) (le_of_lt h2m)
  have ha_le : ∀ c ∈ communityIds G p,
      totalDegree G p c / (2 * G.m)
        ≤ (internalTotal G p + G.m) / (2 * G.m) := by
    intro c _
    rw [div_le_div_iff_of_pos_right h2m]
    have h1 := totalDegree_le hwf p c
    have h2 := internalWeight_le_internalTotal hwf p c
    linarith
  have hsq_le : ∑ c in communityIds G p, (totalDegree G p c / (2 * G.m)) ^ 2
      ≤ (internalTotal G p + G.m) / (2 * G.m) := by
    calc ∑ c in communityIds G p, (totalDegree G p c / (2 * G.m)) ^ 2
        ≤ ∑ c in communityIds G p,
            (totalDegree G p c / (2 * G.m))
              * ((internalTotal G p + G.m) / (2 * G.m)) := by
          apply Finset.sum_le_sum
          intro c hc
          rw [sq]
          exact mul_le_mul_of_nonneg_left (ha_le c hc) (ha_nonneg c hc)
      _ = (∑ c in communityIds G p, totalDegree G p c / (2 * G.m))
            * ((internalTotal G p + G.m) / (2 * G.m)) := by
          rw [Finset.sum_mul]
      _ = (internalTotal G p + G.m) / (2 * G.m) := by
          rw [sum_a_eq_one hwf p hmne, one_mul]
  refine ⟨⟨?_, ?_⟩, ?_⟩
  · rw [score_eq hwf p]
    have hkey : internalTotal G p / G.m
        - (internalTotal G p + G.m) / (2 * G.m)
        = (internalTotal G p - G.m) / (2 * G.m) := by
      field_simp
      ring
    have hlast : -(1 / 2 : ℚ) ≤ (internalTotal G p - G.m) / (2 * G.m) := by
      rw [le_div_iff₀ h2m]
      linarith
    linarith
  · rw [score_eq hwf p]
    have hdiv : internalTotal G p / G.m ≤ 1 := by
      rw [div_le_one hm]
      exact hSm
    linarith
  · intro hinj
    have hS : internalTotal G p = 0 := by
      apply Finset.sum_eq_zero
      intro e he
      obtain ⟨hlt, h1, h2⟩ := hwf.1 e he
      rw [if_neg]
      intro hc
      exact (Nat.ne_of_lt hlt)
        (hinj (Finset.mem_coe.mpr h1) (Finset.mem_coe.mpr h2) hc)
    rw [score_eq hwf p, hS, zero_div]
    linarith

end ModularityEvaluator

theorem K2_WF : K2.WF :=
  ⟨by decide, fun _ _ => one_pos⟩

theorem K2_m : K2.m = 1 := by
  simp [SpecGraph.m, K2]

theorem K2_score :
    ModularityEvaluator.score K2 (fun v => v) = -(1 / 2) := by
  have hids : ModularityEvaluator.communityIds K2 (fun v => v) = {0, 1} := by
    simp [ModularityEvaluator.communityIds, K2]
  rw [ModularityEvaluator.score, hids]
  rw [Finset.sum_insert (by decide), Finset.sum_singleton]
  norm_num [ModularityEvaluator.internalWeight,
    ModularityEvaluator.totalDegree, SpecGraph.m, SpecGraph.deg, K2,
    Finset.sum_insert, Finset.sum_singleton, Finset.filter_singleton]

theorem score_bounds_witness :
    K2.WF ∧ 0 < K2.m ∧
    ((-(1 / 2) ≤ ModularityEvaluator.score K2 (fun v => v) ∧
        ModularityEvaluator.score K2 (fun v => v) ≤ 1) ∧
      (Set.InjOn (fun v : Nat => v) (↑K2.nodes : Set Nat) →
        ModularityEvaluator.score K2 (fun v => v) ≤ 0)) :=
  ⟨K2_WF, by rw [K2_m]; exact one_pos,
    ModularityEvaluator.score_bounds K2 (fun v => v) K2_WF
      (by rw [K2_m]; exact one_pos)⟩

/-- Claim C8 (counterexample): the single-edge graph under the singleton
partition satisfies the claim's hypotheses yet scores exactly −0.5, which
lies outside the claimed interval (−0.5, 1.0]; the spec's open lower bound
is wrong. -/
theorem score_claimed_interval_counterexample :
    K2.WF ∧ 0 < K2.m ∧
    ModularityEvaluator.score K2 (fun v => v) = -(1 / 2) ∧
    ¬ (-(1 / 2 : ℚ) < ModularityEvaluator.score K2 (fun v => v) ∧
        ModularityEvaluator.score K2 (fun v => v) ≤ 1) := by
  refine ⟨K2_WF, by rw [K2_m]; exact one_pos, K2_score, ?_⟩
  rw [K2_score]
  intro hc
  exact absurd hc.1 (by norm_num)

theorem gainQ_eq_scaled (W : WGraph) (c : Nat → Nat) (v cid : Nat)
    (hm : 0 < W.m) :
    gainQ W c v cid = (gainScaled W c v cid : ℚ) / (2 * (W.m : ℚ) ^ 2) := by
  have hmq : ((W.m : ℚ)) ≠ 0 :=
    Nat.cast_ne_zero.mpr (Nat.pos_iff_ne_zero.mp hm)
  rw [gainQ, gainScaled]
  push_cast
  field_simp
  ring

/-- The integer-scaled gain orders candidate communities exactly as the
spec's rational gain formula does, and is positive exactly when the
rational gain is: phase 1 decided through `gainScaled` makes the same moves
as the spec's `ΔQ`. -/
theorem gainScaled_ordering (W : WGraph) (c : Nat → Nat) (v cid1 cid2 : Nat)
    (hm : 0 < W.m) :
    (gainQ W c v cid1 < gainQ W c v cid2 ↔
      gainScaled W c v cid1 < gainScaled W c v cid2) ∧
    (0 < gainQ W c v cid1 ↔ 0 < gainScaled W c v cid1) := by
  have hmq : (0 : ℚ) < (W.m : ℚ) := by exact_mod_cast hm
  have hpos : (0 : ℚ) < 2 * (W.m : ℚ) ^ 2 := by positivity
  rw [gainQ_eq_scaled W c v cid1 hm, gainQ_eq_scaled W c v cid2 hm]
  constructor
  · rw [div_lt_div_iff_of_pos_right hpos]
    exact Int.cast_lt
  · rw [lt_div_iff₀ hpos, zero_mul]
    exact Int.cast_pos
